import Mathlib

/-!
Verification of the cascade-merge service (Go, libgit2) against its
natural-language specification.

The development shallowly embeds the program's pure algorithms directly
(version comparison, cascade construction) and its effectful procedures as
trace-producing functions over an abstract environment that supplies the
outcome of each git/API primitive.  Machine integers are embedded as `Int`
with explicit clamping to the 64-bit range where Go's `strconv` clamps.

The `Cascade` iterator type (`Append`/`Next`/`Slice`) and the
`CascadeOptions`/`CascadeMergeState` records live in a repository file that
is not part of the staged sources; those definitions are modelled from the
specification (sections 2, 3, 4.2 and 4.3) and are marked as such.
-/

/-! ## Go string and integer primitives -/

/-- The Go constant `DefaultMaster` ("master"), client source line 16. -/
def DefaultMaster : String := "master"

/-- The Go constant `DefaultRemoteName` ("origin"), client source line 17. -/
def DefaultRemoteName : String := "origin"

/-- `dropPre pre s` strips the character sequence `pre` from the front of
`s`, returning `none` when `pre` is not a prefix.  Shared scaffolding for
`strings.HasPrefix` and `strings.TrimPrefix`. -/
def dropPre : List Char → List Char → Option (List Char)
  | [], s => some s
  | _ :: _, [] => none
  | p :: ps, c :: cs => if c = p then dropPre ps cs else none

/-- Go `strings.HasPrefix s pre`. -/
def hasPre (s pre : String) : Bool :=
  (dropPre pre.data s.data).isSome

/-- Go `strings.TrimPrefix s pre`: `s` without the leading `pre`, or `s`
unchanged when `pre` is not a prefix. -/
def trimPre (s pre : String) : String :=
  match dropPre pre.data s.data with
  | some rest => String.mk rest
  | none => s

/-- Go `strings.Split s "."` on the character list of `s`: the groups of
characters between the dots (never empty; the empty string splits to one
empty group). -/
def splitDot : List Char → List (List Char)
  | [] => [[]]
  | c :: rest =>
    if c = '.' then [] :: splitDot rest
    else
      match splitDot rest with
      | [] => [[c]]
      | g :: gs => (c :: g) :: gs

/-- Largest value of Go's 64-bit `int`. -/
def int64Max : Int := 9223372036854775807

/-- Smallest value of Go's 64-bit `int`. -/
def int64Min : Int := -9223372036854775808

/-- Clamping to the 64-bit `int` range: Go's `strconv.ParseInt` returns the
nearest representable value together with a range error, and the program
discards the error. -/
def clampInt64 (n : Int) : Int :=
  if n > int64Max then int64Max
  else if n < int64Min then int64Min
  else n

/-- Value of a decimal digit sequence. -/
def digitsVal (ds : List Char) : Int :=
  ds.foldl (fun acc c => acc * 10 + Int.ofNat (c.toNat - '0'.toNat)) 0

/-- Does `cs` have the syntax of a Go decimal integer literal as
`strconv.Atoi` accepts it: an optional sign followed by at least one ASCII
digit? -/
def goIntSyntax (cs : List Char) : Bool :=
  match cs with
  | '-' :: rest => !rest.isEmpty && rest.all Char.isDigit
  | '+' :: rest => !rest.isEmpty && rest.all Char.isDigit
  | _ => !cs.isEmpty && cs.all Char.isDigit

/-- The signed value of a well-formed literal, before clamping. -/
def goIntVal (cs : List Char) : Int :=
  match cs with
  | '-' :: rest => -(digitsVal rest)
  | '+' :: rest => digitsVal rest
  | _ => digitsVal cs

/-- Go `n, _ := strconv.Atoi(string cs)` with the error discarded, as the
comparator uses it (client source lines 292-293): a malformed component
yields 0, an out-of-range one yields the clamped 64-bit value. -/
def goAtoi (cs : List Char) : Int :=
  if goIntSyntax cs then clampInt64 (goIntVal cs) else 0

/-! ## compareVersions (client source lines 288-306) -/

/-- The loop of `compareVersions`: walk the two component lists in step,
deciding at the first pair of distinct integer values; when the common
prefix agrees, the comparison of the original lengths decides (the Go code
compares lengths after the loop; since the loop consumed equal numbers of
components from both lists, comparing the remaining lengths is the same
comparison). -/
def compareParts : List (List Char) → List (List Char) → Int
  | [], [] => 0
  | [], _ :: _ => -1
  | _ :: _, [] => 1
  | a :: as, b :: bs =>
    if goAtoi a < goAtoi b then -1
    else if goAtoi a > goAtoi b then 1
    else compareParts as bs

/-- `compareVersions` (client source lines 288-306): compares two dotted
version strings component by component as integers. -/
def compareVersions (v1 v2 : String) : Int :=
  compareParts (splitDot v1.data) (splitDot v2.data)

/-- Reference comparison of two integer lists: pairwise, then by length.
Used to state that `compareVersions` is the numeric-component lexicographic
comparison of the parsed components. -/
def intLexCmp : List Int → List Int → Int
  | [], [] => 0
  | [], _ :: _ => -1
  | _ :: _, [] => 1
  | a :: as, b :: bs =>
    if a < b then -1
    else if a > b then 1
    else intLexCmp as bs

/-! ## The cascade data model

`CascadeOptions`, `Cascade` and `CascadeMergeState` are declared in a
repository file that is not among the staged sources; their shapes are
fixed by the staged code that constructs and reads them (client source
lines 40-102, 308-366; worker source lines 58-88) and by specification
sections 3 and 4.3. -/

/-- Per-repository branching options (specification section 3):
`DevelopmentName` is matched exactly, `ReleasePrefix` as a prefix. -/
structure CascadeOptions where
  DevelopmentName : String
  ReleasePrefix : String
deriving DecidableEq, Repr

/-- Ordered sequence of branch names plus a cursor (specification
sections 2 and 4.3). -/
structure Cascade where
  Branches : List String
  Current : Nat
deriving DecidableEq, Repr

/-- Result record of a cascade run: the source/target pair of the failing
step and its error; a run that fails before the merge loop leaves `Source`
and `Target` at their zero value `""` (specification section 3; client
source lines 49-99). -/
structure CascadeMergeState where
  Source : String
  Target : String
  error : String
deriving DecidableEq, Repr

/-- Modelled from the spec: `Cascade.Append` of the unstaged cascade file.
Specification section 4.3: "append(name): adds to the end, no
de-duplication". -/
def Cascade.Append (c : Cascade) (branchName : String) : Cascade :=
  { c with Branches := c.Branches ++ [branchName] }

/-- Modelled from the spec: `Cascade.Next` of the unstaged cascade file.
Specification section 4.3: "next() → name | empty: returns and advances
past the element after the cursor; once exhausted, always returns empty". -/
def Cascade.Next (c : Cascade) : String × Cascade :=
  if h : c.Current < c.Branches.length then
    (c.Branches[c.Current], { c with Current := c.Current + 1 })
  else ("", c)

/-- Scan for the first occurrence of `b`; `some rest` returns everything
after it.  Scaffolding for `Cascade.Slice`. -/
def sliceFrom (b : String) : List String → Option (List String)
  | [] => none
  | x :: xs => if x = b then some xs else sliceFrom b xs

/-- Modelled from the spec: `Cascade.Slice` of the unstaged cascade file.
Specification section 4.2 step 4: "Truncate to start immediately after
startBranch: if startBranch is present at index i, result = base[i+1:]
(startBranch is a merge source, never a target); if absent, the result is
the full base sequence unchanged."  The cursor returns to the front of the
truncated sequence. -/
def Cascade.Slice (c : Cascade) (branchName : String) : Cascade :=
  match sliceFrom branchName c.Branches with
  | some rest => { Branches := rest, Current := 0 }
  | none => c

/-! ## BuildCascade (client source lines 308-366) -/

/-- Insertion of `a` into `l` ordered by the strict comparison `less`.
Scaffolding for `sortByLess`. -/
def insertLess (less : String → String → Bool) (a : String) : List String → List String
  | [] => [a]
  | b :: bs => if less a b then a :: b :: bs else b :: insertLess less a bs

/-- Comparison sort by the strict `less` function.  Go's `sort.Slice`
(client source lines 334-338) is an unspecified comparison sort; any
comparison sort produces a permutation ordered by `less`, which is all the
verified claims use. -/
def sortByLess (less : String → String → Bool) : List String → List String
  | [] => []
  | a :: as => insertLess less a (sortByLess less as)

/-- The release-branch ordering of client source lines 334-338: strictly
less when the version suffixes after `ReleasePrefix` compare below zero. -/
def releaseLess (options : CascadeOptions) (a b : String) : Bool :=
  compareVersions (trimPre a options.ReleasePrefix) (trimPre b options.ReleasePrefix) < 0

/-- The scan of client source lines 348-354: index of the first occurrence
of `a`, or `none` (the Go code encodes `none` as -1). -/
def firstIdxOf (a : String) : List String → Option Nat
  | [] => none
  | b :: bs => if b = a then some 0 else (firstIdxOf a bs).map (· + 1)

/-- `BuildCascade` (client source lines 308-366) as a function of the
remote branch shorthands the branch iterator yields.  One pass classifies
each branch name (shorthand with the leading "origin/" trimmed): an exact
match on `DevelopmentName` is appended to the cascade, otherwise a
`ReleasePrefix` match is collected; the release branches are sorted
ascending by version and appended; the sequence is truncated after
`startBranch`; finally the first occurrence of "master" is moved to the
end, or "master" is appended if absent. -/
def BuildCascade (remoteShorthands : List String) (options : CascadeOptions)
    (startBranch : String) : Cascade :=
  let names := remoteShorthands.map (fun sh => trimPre sh (DefaultRemoteName ++ "/"))
  let devBranches := names.filter (fun n => n = options.DevelopmentName)
  let releaseBranches :=
    names.filter (fun n => !(n = options.DevelopmentName : Bool) && hasPre n options.ReleasePrefix)
  let sortedReleases := sortByLess (releaseLess options) releaseBranches
  let cascade1 : Cascade := { Branches := devBranches ++ sortedReleases, Current := 0 }
  let cascade2 := cascade1.Slice startBranch
  match firstIdxOf DefaultMaster cascade2.Branches with
  | some i =>
    { cascade2 with
      Branches := (cascade2.Branches.take i ++ cascade2.Branches.drop (i + 1)) ++ [DefaultMaster] }
  | none => cascade2.Append DefaultMaster

/-! ## The Cascade Merge Engine (client source lines 40-102)

`CascadeMerge` drives the repository-client primitives.  The primitives
touch a real git repository; they are embedded through an abstract
environment that supplies each primitive's outcome (`none` = success,
`some e` = failure with error `e`) as a function of the call history, so
that an outcome may depend on everything the engine did before.  The
engine returns its Go result together with the trace of primitive calls
it performed, in order. -/

/-- One repository-client primitive call, with its arguments. -/
inductive GitCall where
  | removeLocalBranches
  | fetch
  | buildCascade (options : CascadeOptions) (startBranch : String)
  | checkout (branch : String)
  | reset (branch : String)
  | mergeBranches (source target : String)
  | push (branch : String)
deriving DecidableEq, Repr

/-- Outcomes of the repository-client primitives, each a function of the
call history so far (and of the call's arguments). -/
structure GitEnv where
  removeLocalBranches : List GitCall → Option String
  fetch : List GitCall → Option String
  buildCascade : List GitCall → CascadeOptions → String → Except String Cascade
  checkout : List GitCall → String → Option String
  reset : List GitCall → String → Option String
  mergeBranches : List GitCall → String → String → Option String
  push : List GitCall → String → Option String

/-- The option defaulting of client source lines 42-47: a nil options
pointer is replaced by develop/release defaults. -/
def defaultedOptions : Option CascadeOptions → CascadeOptions
  | none => { DevelopmentName := "develop", ReleasePrefix := "release/" }
  | some o => o

/-- The loop of client source lines 77-99, written structurally over the
list of branch names the cursor has not yet passed (see
`cascadeLoopNext_eq_list`: iterating `Cascade.Next` walks exactly this
list, stopping at the first empty name or at the end).  Each iteration
checks out the target, resets it, merges the current source into it and
pushes it; the first failing step stops the run with the source/target
pair in flight; after a successful push the target becomes the new
source. -/
def cascadeLoopList (env : GitEnv) (tr : List GitCall) (source : String) :
    List String → Option CascadeMergeState × List GitCall
  | [] => (none, tr)
  | target :: rest =>
    if target = "" then (none, tr)
    else
      match env.checkout tr target with
      | some e => (some ⟨source, target, e⟩, tr ++ [GitCall.checkout target])
      | none =>
        let tr1 := tr ++ [GitCall.checkout target]
        match env.reset tr1 target with
        | some e => (some ⟨source, target, e⟩, tr1 ++ [GitCall.reset target])
        | none =>
          let tr2 := tr1 ++ [GitCall.reset target]
          match env.mergeBranches tr2 source target with
          | some e => (some ⟨source, target, e⟩, tr2 ++ [GitCall.mergeBranches source target])
          | none =>
            let tr3 := tr2 ++ [GitCall.mergeBranches source target]
            match env.push tr3 target with
            | some e => (some ⟨source, target, e⟩, tr3 ++ [GitCall.push target])
            | none => cascadeLoopList env (tr3 ++ [GitCall.push target]) target rest

/-- The loop of client source lines 77-99 exactly as written: `for target
:= cascade.Next(); target != ""; target = cascade.Next()`.  Proved equal
to `cascadeLoopList` on the not-yet-visited branches in
`cascadeLoopNext_eq_list`. -/
def cascadeLoopNext (env : GitEnv) (tr : List GitCall) (source : String) (c : Cascade) :
    Option CascadeMergeState × List GitCall :=
  match hnext : c.Next with
  | (target, c2) =>
    if htarget : target = "" then (none, tr)
    else
      match env.checkout tr target with
      | some e => (some ⟨source, target, e⟩, tr ++ [GitCall.checkout target])
      | none =>
        let tr1 := tr ++ [GitCall.checkout target]
        match env.reset tr1 target with
        | some e => (some ⟨source, target, e⟩, tr1 ++ [GitCall.reset target])
        | none =>
          let tr2 := tr1 ++ [GitCall.reset target]
          match env.mergeBranches tr2 source target with
          | some e => (some ⟨source, target, e⟩, tr2 ++ [GitCall.mergeBranches source target])
          | none =>
            let tr3 := tr2 ++ [GitCall.mergeBranches source target]
            match env.push tr3 target with
            | some e => (some ⟨source, target, e⟩, tr3 ++ [GitCall.push target])
            | none => cascadeLoopNext env (tr3 ++ [GitCall.push target]) target c2
termination_by c.Branches.length - c.Current
decreasing_by
  simp only [Cascade.Next] at hnext
  split at hnext
  · cases hnext
    simp only []
    omega
  · cases hnext
    exact absurd rfl htarget

/-- `CascadeMerge` (client source lines 40-102): remove the local
branches, fetch, build the cascade, check out and reset the trigger
branch, then run the merge loop.  Every step failure returns a
`CascadeMergeState`; reaching the end returns `none`.  The second
component is the trace of primitive calls. -/
def CascadeMerge (env : GitEnv) (branchName : String) (options : Option CascadeOptions) :
    Option CascadeMergeState × List GitCall :=
  let opts := defaultedOptions options
  match env.removeLocalBranches [] with
  | some e => (some ⟨"", "", e⟩, [GitCall.removeLocalBranches])
  | none =>
    let tr1 : List GitCall := [GitCall.removeLocalBranches]
    match env.fetch tr1 with
    | some e => (some ⟨"", "", e⟩, tr1 ++ [GitCall.fetch])
    | none =>
      let tr2 := tr1 ++ [GitCall.fetch]
      match env.buildCascade tr2 opts branchName with
      | Except.error e => (some ⟨"", "", e⟩, tr2 ++ [GitCall.buildCascade opts branchName])
      | Except.ok cascade =>
        let tr3 := tr2 ++ [GitCall.buildCascade opts branchName]
        let source := branchName
        match env.checkout tr3 source with
        | some e => (some ⟨"", "", e⟩, tr3 ++ [GitCall.checkout source])
        | none =>
          let tr4 := tr3 ++ [GitCall.checkout source]
          match env.reset tr4 source with
          | some e => (some ⟨"", "", e⟩, tr4 ++ [GitCall.reset source])
          | none =>
            let tr5 := tr4 ++ [GitCall.reset source]
            cascadeLoopList env tr5 source (cascade.Branches.drop cascade.Current)

/-- The merge calls of a trace, in order, with their (source, target)
arguments. -/
def mergeCalls (tr : List GitCall) : List (String × String) :=
  tr.filterMap fun call =>
    match call with
    | GitCall.mergeBranches s t => some (s, t)
    | _ => none

/-- The target branch a loop step operates on. -/
def stepTarget : GitCall → Option String
  | GitCall.checkout b => some b
  | GitCall.reset b => some b
  | GitCall.mergeBranches _ t => some t
  | GitCall.push b => some b
  | _ => none

/-- The merge source in flight after the calls `tr`: the branch of the
last push, or `b` when nothing has been pushed (the engine sets
`source := target` exactly after each successful push, client source
line 98). -/
def lastPushed (b : String) : List GitCall → String
  | [] => b
  | GitCall.push t :: rest => lastPushed t rest
  | _ :: rest => lastPushed b rest

/-- The environment's verdict on one call made after history `pre`:
`some e` when the environment fails that call with error `e`. -/
def callFails (env : GitEnv) (pre : List GitCall) : GitCall → Option String
  | GitCall.removeLocalBranches => env.removeLocalBranches pre
  | GitCall.fetch => env.fetch pre
  | GitCall.buildCascade o s =>
    match env.buildCascade pre o s with
    | Except.error e => some e
    | Except.ok _ => none
  | GitCall.checkout b => env.checkout pre b
  | GitCall.reset b => env.reset pre b
  | GitCall.mergeBranches s t => env.mergeBranches pre s t
  | GitCall.push b => env.push pre b

/-! ## MergeBranches (client source lines 368-480)

The merge procedure is a straight line of libgit2 calls; each call's
outcome is supplied by an abstract environment.  The trace records the
three state-changing actions (the merge into the working tree, the merge
commit, the state cleanup), so that "no commit happened" is visible. -/

/-- libgit2 merge-analysis bits as git2go exposes them:
GIT_MERGE_ANALYSIS_NONE = 0, NORMAL = 1, UP_TO_DATE = 2 (FASTFORWARD = 4,
UNBORN = 8 are not consulted by the code). -/
def MergeAnalysisNone : Nat := 0

/-- GIT_MERGE_ANALYSIS_NORMAL. -/
def MergeAnalysisNormal : Nat := 1

/-- GIT_MERGE_ANALYSIS_UP_TO_DATE. -/
def MergeAnalysisUpToDate : Nat := 2

/-- State-changing actions of `MergeBranches`. -/
inductive MergeAction where
  | mergeOp
  | createCommit (message : String)
  | stateCleanup
deriving DecidableEq, Repr

/-- Outcomes of the libgit2 calls inside `MergeBranches` (`none` =
success).  `mergeAnalysis` is the analysis bitmask; the error returned
alongside it is assigned but never checked by the source (line 399), so it
does not appear. -/
structure MergeEnv where
  lookupSourceBranch : Option String
  lookupDestinationBranch : Option String
  annotatedCommitFromRef : Option String
  headLookup : Option String
  mergeAnalysis : Nat
  mergeOp : Option String
  indexLookup : Option String
  hasConflicts : Bool
  lookupSourceCommit : Option String
  writeTree : Option String
  lookupTree : Option String
  lookupHeadCommit : Option String
  createCommit : Option String
  stateCleanup : Option String

/-- The conflict error of client source line 435. -/
def conflictErrorMessage : String :=
  "merge resulted in conflicts, please solve the conflicts before merging"

/-- The non-normal-analysis error of client source line 408. -/
def notNormalErrorMessage : String := "merge analysis returned as not normal merge"

/-- `MergeBranches` (client source lines 368-480): look up both local
branches, build the annotated commit and read head, run merge analysis
(already-merged analyses are a silent no-op success, anything not normal
is an error), merge into the working tree, fail on index conflicts without
committing, otherwise commit a two-parent merge with the source commit's
author and the message "Automatic merge (source) into (destination)" and
clean up the merge state. -/
def MergeBranches (env : MergeEnv) (sourceBranchName destinationBranchName : String) :
    Except String Unit × List MergeAction :=
  match env.lookupSourceBranch with
  | some e => (Except.error e, [])
  | none =>
  match env.lookupDestinationBranch with
  | some e => (Except.error e, [])
  | none =>
  match env.annotatedCommitFromRef with
  | some e => (Except.error e, [])
  | none =>
  match env.headLookup with
  | some e => (Except.error e, [])
  | none =>
  let analysis := env.mergeAnalysis
  if analysis &&& MergeAnalysisNone ≠ 0 ∨ analysis &&& MergeAnalysisUpToDate ≠ 0 then
    (Except.ok (), [])
  else if analysis &&& MergeAnalysisNormal = 0 then
    (Except.error notNormalErrorMessage, [])
  else
  match env.mergeOp with
  | some e => (Except.error e, [MergeAction.mergeOp])
  | none =>
  match env.indexLookup with
  | some e => (Except.error e, [MergeAction.mergeOp])
  | none =>
  if env.hasConflicts then
    (Except.error conflictErrorMessage, [MergeAction.mergeOp])
  else
  match env.lookupSourceCommit with
  | some e => (Except.error e, [MergeAction.mergeOp])
  | none =>
  match env.writeTree with
  | some e => (Except.error e, [MergeAction.mergeOp])
  | none =>
  match env.lookupTree with
  | some e => (Except.error e, [MergeAction.mergeOp])
  | none =>
  match env.lookupHeadCommit with
  | some e => (Except.error e, [MergeAction.mergeOp])
  | none =>
  let message := "Automatic merge " ++ sourceBranchName ++ " into " ++ destinationBranchName
  match env.createCommit with
  | some e => (Except.error e, [MergeAction.mergeOp, MergeAction.createCommit message])
  | none =>
  match env.stateCleanup with
  | some e =>
    (Except.error e,
      [MergeAction.mergeOp, MergeAction.createCommit message, MergeAction.stateCleanup])
  | none =>
    (Except.ok (),
      [MergeAction.mergeOp, MergeAction.createCommit message, MergeAction.stateCleanup])

/-! ## RemoveLocalBranches (client source lines 482-499) -/

/-- The `ForEach` body of client source lines 488-496 over the local
branch shorthands: skip "master", delete everything else; a failing
deletion makes the callback return its error, which aborts the iteration.
Returns the branches actually deleted and the error that aborted the
iteration, if any. -/
def removeLoop (deleteBranch : String → Option String) :
    List String → List String × Option String
  | [] => ([], none)
  | b :: rest =>
    if DefaultMaster = b then removeLoop deleteBranch rest
    else
      match deleteBranch b with
      | some e => ([], some e)
      | none =>
        let r := removeLoop deleteBranch rest
        (b :: r.1, r.2)

/-- `RemoveLocalBranches` (client source lines 482-499): create the local
branch iterator (whose failure is returned), run the deletion loop, and
return — the source discards the result of `iterator.ForEach` and ends
with `return nil`, so after a successful iterator creation the function
returns no error even when a deletion failed.  Result: (returned error,
branches actually deleted). -/
def RemoveLocalBranches (iteratorErr : Option String) (localBranches : List String)
    (deleteBranch : String → Option String) : Option String × List String :=
  match iteratorErr with
  | some e => (some e, [])
  | none => (none, (removeLoop deleteBranch localBranches).1)

/-! ## The event worker (worker source lines 29-90)

One event's processing, as the list of collaborator actions the worker
performs.  The environment fixes each collaborator call's outcome. -/

/-- Collaborator calls the worker can make for one event. -/
inductive WorkerAction where
  | getCloneURL
  | newClient (failed : Bool)
  | getCascadeOptions
  | cascadeMerge (nilClient : Bool) (branchName : String)
  | createPullRequest (title description source target : String)
deriving DecidableEq, Repr

/-- Outcomes of the collaborator calls for one event. -/
structure WorkerEnv where
  getCloneURL : Except String String
  newClient : Except String Unit
  getCascadeOptions : Except String CascadeOptions
  cascadeResult : Option CascadeMergeState

/-- One iteration of the worker loop (worker source lines 30-89): resolve
the clone URL (failure skips the event), initialize the client (failure is
only logged — the worker carries on with a nil client), read the cascade
options (failure skips the event), skip when the destination starts with
the development name but not with the release prefix, otherwise run the
cascade merge and, when it fails, open a remediation pull request from the
failing source to the failing target. -/
def workerBody (env : WorkerEnv) (destination : String) : List WorkerAction :=
  match env.getCloneURL with
  | Except.error _ => [WorkerAction.getCloneURL]
  | Except.ok _ =>
    let nilClient := match env.newClient with | Except.error _ => true | Except.ok _ => false
    match env.getCascadeOptions with
    | Except.error _ =>
      [WorkerAction.getCloneURL, WorkerAction.newClient nilClient,
        WorkerAction.getCascadeOptions]
    | Except.ok opts =>
      if hasPre destination opts.DevelopmentName && !hasPre destination opts.ReleasePrefix then
        [WorkerAction.getCloneURL, WorkerAction.newClient nilClient,
          WorkerAction.getCascadeOptions]
      else
        let acts :=
          [WorkerAction.getCloneURL, WorkerAction.newClient nilClient,
            WorkerAction.getCascadeOptions, WorkerAction.cascadeMerge nilClient destination]
        match env.cascadeResult with
        | none => acts
        | some st =>
          acts ++ [WorkerAction.createPullRequest "Automatic merge failure"
            "There was a merge conflict automatically merging this branch" st.Source st.Target]

/-! ## Concrete environments used to exercise the theorems -/

/-- Environment in which every primitive succeeds, the cascade is
[r2, master], and the merge into "master" fails. -/
def envFailMaster : GitEnv where
  removeLocalBranches := fun _ => none
  fetch := fun _ => none
  buildCascade := fun _ _ _ => Except.ok { Branches := ["r2", "master"], Current := 0 }
  checkout := fun _ _ => none
  reset := fun _ _ => none
  mergeBranches := fun _ _ t => if t = "master" then some "boom" else none
  push := fun _ _ => none

/-- Environment in which every primitive succeeds and the cascade is
[r2, master]. -/
def envAllOk : GitEnv where
  removeLocalBranches := fun _ => none
  fetch := fun _ => none
  buildCascade := fun _ _ _ => Except.ok { Branches := ["r2", "master"], Current := 0 }
  checkout := fun _ _ => none
  reset := fun _ _ => none
  mergeBranches := fun _ _ _ => none
  push := fun _ _ => none

/-- Environment in which every merge fails. -/
def envMergeFails : GitEnv where
  removeLocalBranches := fun _ => none
  fetch := fun _ => none
  buildCascade := fun _ _ _ => Except.ok { Branches := ["t"], Current := 0 }
  checkout := fun _ _ => none
  reset := fun _ _ => none
  mergeBranches := fun _ _ _ => some "conflict"
  push := fun _ _ => none

/-- A merge environment reaching a normal merge whose index has
conflicts. -/
def envConflict : MergeEnv where
  lookupSourceBranch := none
  lookupDestinationBranch := none
  annotatedCommitFromRef := none
  headLookup := none
  mergeAnalysis := MergeAnalysisNormal
  mergeOp := none
  indexLookup := none
  hasConflicts := true
  lookupSourceCommit := none
  writeTree := none
  lookupTree := none
  lookupHeadCommit := none
  createCommit := none
  stateCleanup := none

/-- A worker environment whose collaborators all succeed, with
develop/release options. -/
def wenvOk : WorkerEnv where
  getCloneURL := Except.ok "https-url"
  newClient := Except.ok ()
  getCascadeOptions := Except.ok { DevelopmentName := "develop", ReleasePrefix := "release/" }
  cascadeResult := none

/-- A worker environment in which only the client initialization fails. -/
def wenvClientFails : WorkerEnv where
  getCloneURL := Except.ok "https-url"
  newClient := Except.error "cannot clone"
  getCascadeOptions := Except.ok { DevelopmentName := "develop", ReleasePrefix := "release/" }
  cascadeResult := none

/-- A worker environment in which the clone-URL lookup fails. -/
def wenvURLFails : WorkerEnv where
  getCloneURL := Except.error "http 404"
  newClient := Except.ok ()
  getCascadeOptions := Except.ok { DevelopmentName := "develop", ReleasePrefix := "release/" }
  cascadeResult := none

/-- A worker environment in which the branching-model lookup fails. -/
def wenvOptionsFail : WorkerEnv where
  getCloneURL := Except.ok "https-url"
  newClient := Except.ok ()
  getCascadeOptions := Except.error "no branching model"
  cascadeResult := none

/-! ## Theorems -/

lemma compareParts_self (l : List (List Char)) : compareParts l l = 0 := by
  induction l with
  | nil => rfl
  | cons a as ih => simp [compareParts, lt_irrefl, ih]

lemma compareParts_antisymm (l1 l2 : List (List Char)) :
    compareParts l1 l2 = -compareParts l2 l1 := by
  induction l1 generalizing l2 with
  | nil => cases l2 <;> simp [compareParts]
  | cons a as ih =>
    cases l2 with
    | nil => simp [compareParts]
    | cons b bs =>
      by_cases h1 : goAtoi a < goAtoi b
      · have h2 : ¬ goAtoi b < goAtoi a := by omega
        simp [compareParts, h1, h2, gt_iff_lt]
      · by_cases h3 : goAtoi b < goAtoi a
        · simp [compareParts, h1, h3, gt_iff_lt]
        · simp [compareParts, h1, h3, gt_iff_lt, ih bs]

lemma compareParts_eq_intLexCmp (l1 l2 : List (List Char)) :
    compareParts l1 l2 = intLexCmp (l1.map goAtoi) (l2.map goAtoi) := by
  induction l1 generalizing l2 with
  | nil => cases l2 <;> simp [compareParts, intLexCmp]
  | cons a as ih =>
    cases l2 with
    | nil => simp [compareParts, intLexCmp]
    | cons b bs => simp [compareParts, intLexCmp, ih bs]

lemma compareParts_take_lt (l1 l2 : List (List Char))
    (hpre : l1.map goAtoi = (l2.map goAtoi).take l1.length)
    (hlen : l1.length < l2.length) :
    compareParts l1 l2 = -1 := by
  induction l1 generalizing l2 with
  | nil =>
    cases l2 with
    | nil => exact absurd hlen (by simp)
    | cons b bs => rfl
  | cons a as ih =>
    cases l2 with
    | nil => exact absurd hlen (by simp)
    | cons b bs =>
      simp only [List.map_cons, List.length_cons, List.take_succ_cons, List.cons.injEq] at hpre
      have h1 : goAtoi a = goAtoi b := hpre.1
      simp [compareParts, h1, lt_irrefl, ih bs hpre.2 (by simpa using hlen)]

/-- Claim C7: `compareVersions` satisfies compare(a,a) = 0 and
compare(a,b) = -compare(b,a); it equals the numeric lexicographic
comparison of the parsed components (components compared pairwise as
integers, then by component count); a non-numeric component parses as 0;
and a version whose parsed component sequence is a proper prefix of the
other's sorts strictly before it. -/
theorem compareVersions_strict_weak_order :
    (∀ a : String, compareVersions a a = 0)
    ∧ (∀ a b : String, compareVersions a b = -(compareVersions b a))
    ∧ (∀ a b : String,
        compareVersions a b
          = intLexCmp ((splitDot a.data).map goAtoi) ((splitDot b.data).map goAtoi))
    ∧ (∀ cs : List Char, goIntSyntax cs = false → goAtoi cs = 0)
    ∧ (∀ a b : String,
        (splitDot a.data).map goAtoi
          = ((splitDot b.data).map goAtoi).take (splitDot a.data).length →
        (splitDot a.data).length < (splitDot b.data).length →
        compareVersions a b = -1) := by
  refine ⟨fun a => compareParts_self _,
    fun a b => compareParts_antisymm _ _,
    fun a b => compareParts_eq_intLexCmp _ _,
    fun cs h => by simp [goAtoi, h],
    fun a b hpre hlen => compareParts_take_lt _ _ hpre hlen⟩

/-- Witness for claim C7: a non-numeric component parses as 0, and
"1.2" sorts before "1.2.0". -/
theorem compareVersions_strict_weak_order_witness :
    goAtoi "abc".data = 0 ∧ compareVersions "1.2" "1.2.0" = -1 :=
  ⟨compareVersions_strict_weak_order.2.2.2.1 "abc".data (by decide),
   compareVersions_strict_weak_order.2.2.2.2 "1.2" "1.2.0" (by decide) (by decide)⟩

lemma cascadeLoopNext_exhausted (env : GitEnv) (tr : List GitCall) (source : String)
    (c : Cascade) (h : c.Branches.length ≤ c.Current) :
    cascadeLoopNext env tr source c = (none, tr) := by
  have hnext : c.Next = ("", c) := by simp [Cascade.Next, Nat.not_lt.mpr h]
  rw [cascadeLoopNext, hnext]
  rfl

lemma cascadeLoopNext_eq_list (env : GitEnv) (c : Cascade) (tr : List GitCall)
    (source : String) :
    cascadeLoopNext env tr source c
      = cascadeLoopList env tr source (c.Branches.drop c.Current) := by
  suffices h : ∀ (n : Nat) (c : Cascade) (tr : List GitCall) (source : String),
      c.Branches.length - c.Current ≤ n →
      cascadeLoopNext env tr source c
        = cascadeLoopList env tr source (c.Branches.drop c.Current) from
    h (c.Branches.length - c.Current) c tr source le_rfl
  intro n
  induction n with
  | zero =>
    intro c tr source hn
    have hge : c.Branches.length ≤ c.Current := by omega
    rw [cascadeLoopNext_exhausted env tr source c hge, List.drop_eq_nil_of_le hge,
      cascadeLoopList]
  | succ n ih =>
    intro c tr source hn
    by_cases h : c.Current < c.Branches.length
    · have hnext : c.Next = (c.Branches[c.Current], { c with Current := c.Current + 1 }) := by
        simp [Cascade.Next, h]
      have hdrop : c.Branches.drop c.Current
          = c.Branches[c.Current] :: c.Branches.drop (c.Current + 1) :=
        List.drop_eq_getElem_cons h
      rw [cascadeLoopNext, hnext, hdrop]
      by_cases ht : c.Branches[c.Current] = ""
      · simp [cascadeLoopList, ht]
      · cases hco : env.checkout tr (c.Branches[c.Current]) with
        | some e => simp [cascadeLoopList, ht, hco]
        | none =>
          cases hre : env.reset (tr ++ [GitCall.checkout (c.Branches[c.Current])])
              (c.Branches[c.Current]) with
          | some e => simp [cascadeLoopList, ht, hco, hre]
          | none =>
            cases hmg : env.mergeBranches
                (tr ++ [GitCall.checkout (c.Branches[c.Current]),
                  GitCall.reset (c.Branches[c.Current])]) source (c.Branches[c.Current]) with
            | some e => simp [cascadeLoopList, ht, hco, hre, hmg]
            | none =>
              cases hpu : env.push
                  (tr ++ [GitCall.checkout (c.Branches[c.Current]),
                    GitCall.reset (c.Branches[c.Current]),
                    GitCall.mergeBranches source (c.Branches[c.Current])])
                  (c.Branches[c.Current]) with
              | some e => simp [cascadeLoopList, ht, hco, hre, hmg, hpu]
              | none =>
                have hrec := ih { c with Current := c.Current + 1 }
                  (tr ++ [GitCall.checkout (c.Branches[c.Current]),
                    GitCall.reset (c.Branches[c.Current]),
                    GitCall.mergeBranches source (c.Branches[c.Current]),
                    GitCall.push (c.Branches[c.Current])])
                  (c.Branches[c.Current]) (by simp; omega)
                simp only [] at hrec
                simp [cascadeLoopList, ht, hco, hre, hmg, hpu]
                simpa using hrec
    · have hge : c.Branches.length ≤ c.Current := by omega
      rw [cascadeLoopNext_exhausted env tr source c hge, List.drop_eq_nil_of_le hge,
        cascadeLoopList]

lemma lastPushed_append (b : String) (l1 l2 : List GitCall) :
    lastPushed b (l1 ++ l2) = lastPushed (lastPushed b l1) l2 := by
  induction l1 generalizing b with
  | nil => rfl
  | cons c cs ih =>
    cases c <;> simp [lastPushed, ih]

lemma mergeCalls_append (l1 l2 : List GitCall) :
    mergeCalls (l1 ++ l2) = mergeCalls l1 ++ mergeCalls l2 := by
  simp [mergeCalls, List.filterMap_append]

lemma cascadeLoopList_failure (env : GitEnv) :
    ∀ (targets : List String) (tr : List GitCall) (source : String)
      (st : CascadeMergeState) (tr' : List GitCall),
      cascadeLoopList env tr source targets = (some st, tr') →
      ∃ ext last, tr' = (tr ++ ext) ++ [last]
        ∧ stepTarget last = some st.Target
        ∧ st.Source = lastPushed source ext
        ∧ callFails env (tr ++ ext) last = some st.error
        ∧ st.Target ≠ ""
        ∧ (∀ s t, last = GitCall.mergeBranches s t → s = st.Source) := by
  intro targets
  induction targets with
  | nil => intro tr source st tr' hrun; simp [cascadeLoopList] at hrun
  | cons target rest ih =>
    intro tr source st tr' hrun
    by_cases ht : target = ""
    · simp [cascadeLoopList, ht] at hrun
    · rw [cascadeLoopList] at hrun
      rw [if_neg ht] at hrun
      cases hco : env.checkout tr target with
      | some e =>
        rw [hco] at hrun
        injection hrun with h1 h2
        injection h1 with h1
        refine ⟨[], GitCall.checkout target, ?_⟩
        simp [← h1, ← h2, stepTarget, lastPushed, callFails, hco, ht]
      | none =>
        rw [hco] at hrun
        simp only [] at hrun
        cases hre : env.reset (tr ++ [GitCall.checkout target]) target with
        | some e =>
          rw [hre] at hrun
          injection hrun with h1 h2
          injection h1 with h1
          refine ⟨[GitCall.checkout target], GitCall.reset target, ?_⟩
          simp [← h1, ← h2, stepTarget, lastPushed, callFails, hre, ht]
        | none =>
          rw [hre] at hrun
          simp only [] at hrun
          cases hmg : env.mergeBranches
              (tr ++ [GitCall.checkout target, GitCall.reset target]) source target with
          | some e =>
            rw [show tr ++ [GitCall.checkout target] ++ [GitCall.reset target]
                = tr ++ [GitCall.checkout target, GitCall.reset target] from by simp] at hrun
            rw [hmg] at hrun
            injection hrun with h1 h2
            injection h1 with h1
            refine ⟨[GitCall.checkout target, GitCall.reset target],
              GitCall.mergeBranches source target, ?_⟩
            simp [← h1, ← h2, stepTarget, lastPushed, callFails, hmg, ht]
          | none =>
            rw [show tr ++ [GitCall.checkout target] ++ [GitCall.reset target]
                = tr ++ [GitCall.checkout target, GitCall.reset target] from by simp] at hrun
            rw [hmg] at hrun
            simp only [] at hrun
            cases hpu : env.push (tr ++ [GitCall.checkout target, GitCall.reset target,
                GitCall.mergeBranches source target]) target with
            | some e =>
              rw [show tr ++ [GitCall.checkout target, GitCall.reset target]
                    ++ [GitCall.mergeBranches source target]
                  = tr ++ [GitCall.checkout target, GitCall.reset target,
                    GitCall.mergeBranches source target] from by simp] at hrun
              rw [hpu] at hrun
              injection hrun with h1 h2
              injection h1 with h1
              refine ⟨[GitCall.checkout target, GitCall.reset target,
                GitCall.mergeBranches source target], GitCall.push target, ?_⟩
              simp [← h1, ← h2, stepTarget, lastPushed, callFails, hpu, ht]
            | none =>
              rw [show tr ++ [GitCall.checkout target, GitCall.reset target]
                    ++ [GitCall.mergeBranches source target]
                  = tr ++ [GitCall.checkout target, GitCall.reset target,
                    GitCall.mergeBranches source target] from by simp] at hrun
              rw [hpu] at hrun
              simp only [] at hrun
              rcases ih _ _ _ _ hrun with ⟨ext, last, hTr, hTarget, hSource, hFails, hne, hmerge⟩
              refine ⟨[GitCall.checkout target, GitCall.reset target,
                GitCall.mergeBranches source target, GitCall.push target] ++ ext, last, ?_, hTarget, ?_, ?_, hne, hmerge⟩
              · rw [hTr]; simp
              · rw [hSource, lastPushed_append]; rfl
              · rw [← hFails]; congr 1; simp

lemma cascadeLoopList_success (env : GitEnv) :
    ∀ (targets : List String) (tr : List GitCall) (source : String) (tr' : List GitCall),
      ("" : String) ∉ targets →
      cascadeLoopList env tr source targets = (none, tr') →
      mergeCalls tr' = mergeCalls tr ++ List.zip (source :: targets) targets := by
  intro targets
  induction targets with
  | nil => intro tr source tr' hne hrun; simp [cascadeLoopList] at hrun; simp [← hrun]
  | cons target rest ih =>
    intro tr source tr' hne hrun
    have ht : target ≠ "" := by
      intro hx; exact hne (by simp [hx])
    have hnerest : ("" : String) ∉ rest := fun hx => hne (by simp [hx])
    rw [cascadeLoopList, if_neg ht] at hrun
    cases hco : env.checkout tr target with
    | some e => simp [hco] at hrun
    | none =>
      simp only [hco] at hrun
      cases hre : env.reset (tr ++ [GitCall.checkout target]) target with
      | some e => simp [hre] at hrun
      | none =>
        simp only [hre, List.append_assoc, List.singleton_append, List.cons_append,
          List.nil_append] at hrun
        cases hmg : env.mergeBranches
            (tr ++ [GitCall.checkout target, GitCall.reset target]) source target with
        | some e => simp [hmg] at hrun
        | none =>
          simp only [hmg] at hrun
          cases hpu : env.push (tr ++ [GitCall.checkout target, GitCall.reset target,
              GitCall.mergeBranches source target]) target with
          | some e => simp [hpu] at hrun
          | none =>
            simp only [hpu] at hrun
            have hrec := ih _ _ _ hnerest hrun
            rw [hrec, mergeCalls_append]
            simp [mergeCalls, List.zip]

/-- Claim C1: every failure of a step inside the cascade loop (checkout,
reset, merge or push of a target) stops `CascadeMerge` immediately — the
failing call is the last call of the trace, so no further merge or push is
performed — and the returned `CascadeMergeState` names exactly the
source/target pair in flight at the failing step (the target of the
failing call, and the source set by the last successful push, initially
the trigger branch).  The never-raises part of the claim is the return
type itself: `CascadeMerge` totally returns `none` or a state. -/
theorem CascadeMerge_stops_at_failing_step :
    ∀ (env : GitEnv) (b : String) (options : Option CascadeOptions)
      (st : CascadeMergeState) (tr : List GitCall),
      CascadeMerge env b options = (some st, tr) →
      st.Target ≠ "" →
      ∃ pre last, tr = pre ++ [last]
        ∧ stepTarget last = some st.Target
        ∧ st.Source = lastPushed b pre
        ∧ callFails env pre last = some st.error
        ∧ (∀ s t, last = GitCall.mergeBranches s t → s = st.Source) := by
  intro env b options st tr hrun hne
  rw [CascadeMerge] at hrun
  cases h1 : env.removeLocalBranches [] with
  | some e =>
    rw [h1] at hrun
    simp [Prod.mk.injEq] at hrun
    exact absurd (by rw [← hrun.1]) hne
  | none =>
    simp only [h1] at hrun
    cases h2 : env.fetch [GitCall.removeLocalBranches] with
    | some e =>
      rw [h2] at hrun
      simp [Prod.mk.injEq] at hrun
      exact absurd (by rw [← hrun.1]) hne
    | none =>
      simp only [h2, List.append_assoc, List.singleton_append, List.cons_append,
        List.nil_append] at hrun
      cases h3 : env.buildCascade [GitCall.removeLocalBranches, GitCall.fetch]
          (defaultedOptions options) b with
      | error e =>
        rw [h3] at hrun
        simp [Prod.mk.injEq] at hrun
        exact absurd (by rw [← hrun.1]) hne
      | ok c =>
        simp only [h3] at hrun
        cases h4 : env.checkout [GitCall.removeLocalBranches, GitCall.fetch,
            GitCall.buildCascade (defaultedOptions options) b] b with
        | some e =>
          rw [h4] at hrun
          simp [Prod.mk.injEq] at hrun
          exact absurd (by rw [← hrun.1]) hne
        | none =>
          simp only [h4] at hrun
          cases h5 : env.reset [GitCall.removeLocalBranches, GitCall.fetch,
              GitCall.buildCascade (defaultedOptions options) b, GitCall.checkout b] b with
          | some e =>
            rw [h5] at hrun
            simp [Prod.mk.injEq] at hrun
            exact absurd (by rw [← hrun.1]) hne
          | none =>
            simp only [h5] at hrun
            rcases cascadeLoopList_failure env _ _ _ _ _ hrun with
              ⟨ext, last, hTr, hTarget, hSource, hFails, _, hmerge⟩
            refine ⟨[GitCall.removeLocalBranches, GitCall.fetch,
              GitCall.buildCascade (defaultedOptions options) b, GitCall.checkout b,
              GitCall.reset b] ++ ext, last, ?_, hTarget, ?_, hFails, hmerge⟩
            · rw [hTr]
            · rw [hSource, lastPushed_append]
              rfl

/-- Witness for claim C1: in `envFailMaster` the merge into "master"
fails after "r2" was pushed; the trace ends at that merge call and the
state names the pair ("r2", "master"). -/
theorem CascadeMerge_stops_at_failing_step_witness :
    ∃ pre last,
      ([GitCall.removeLocalBranches, GitCall.fetch,
        GitCall.buildCascade { DevelopmentName := "develop", ReleasePrefix := "release/" } "r1",
        GitCall.checkout "r1", GitCall.reset "r1", GitCall.checkout "r2", GitCall.reset "r2",
        GitCall.mergeBranches "r1" "r2", GitCall.push "r2", GitCall.checkout "master",
        GitCall.reset "master", GitCall.mergeBranches "r2" "master"] : List GitCall)
        = pre ++ [last]
      ∧ stepTarget last = some "master"
      ∧ "r2" = lastPushed "r1" pre
      ∧ callFails envFailMaster pre last = some "boom"
      ∧ (∀ s t, last = GitCall.mergeBranches s t → s = "r2") :=
  CascadeMerge_stops_at_failing_step envFailMaster "r1" none
    ⟨"r2", "master", "boom"⟩ _ (by decide) (by decide)

/-- Claim C2: on a fully successful run over targets t1..tn produced for
trigger b, the merges performed are exactly (b,t1), (t1,t2), ...,
(t(n-1),tn) in order — the first merge sources the trigger branch, each
later merge sources the immediately preceding target — and, when the
targets are distinct, each target is merged into exactly once. -/
theorem CascadeMerge_hop_by_hop :
    ∀ (env : GitEnv) (b : String) (options : Option CascadeOptions)
      (c : Cascade) (tr : List GitCall),
      env.buildCascade [GitCall.removeLocalBranches, GitCall.fetch]
        (defaultedOptions options) b = Except.ok c →
      CascadeMerge env b options = (none, tr) →
      ("" : String) ∉ c.Branches.drop c.Current →
      mergeCalls tr
        = List.zip (b :: c.Branches.drop c.Current) (c.Branches.drop c.Current)
      ∧ ((c.Branches.drop c.Current).Nodup →
          ∀ t ∈ c.Branches.drop c.Current,
            List.count t ((mergeCalls tr).map Prod.snd) = 1) := by
  intro env b options c tr hbuild hrun hne
  rw [CascadeMerge] at hrun
  cases h1 : env.removeLocalBranches [] with
  | some e => rw [h1] at hrun; simp at hrun
  | none =>
    simp only [h1] at hrun
    cases h2 : env.fetch [GitCall.removeLocalBranches] with
    | some e => rw [h2] at hrun; simp at hrun
    | none =>
      simp only [h2, List.append_assoc, List.singleton_append, List.cons_append,
        List.nil_append] at hrun
      rw [hbuild] at hrun
      simp only [] at hrun
      cases h4 : env.checkout [GitCall.removeLocalBranches, GitCall.fetch,
          GitCall.buildCascade (defaultedOptions options) b] b with
      | some e => rw [h4] at hrun; simp at hrun
      | none =>
        simp only [h4] at hrun
        cases h5 : env.reset [GitCall.removeLocalBranches, GitCall.fetch,
            GitCall.buildCascade (defaultedOptions options) b, GitCall.checkout b] b with
        | some e => rw [h5] at hrun; simp at hrun
        | none =>
          simp only [h5] at hrun
          have hmc := cascadeLoopList_success env _ _ _ _ hne hrun
          have hmcnil : mergeCalls [GitCall.removeLocalBranches, GitCall.fetch,
              GitCall.buildCascade (defaultedOptions options) b, GitCall.checkout b,
              GitCall.reset b] = [] := rfl
          rw [hmcnil, List.nil_append] at hmc
          refine ⟨hmc, fun hnd t hmem => ?_⟩
          have hmap : (mergeCalls tr).map Prod.snd = c.Branches.drop c.Current := by
            rw [hmc]
            exact List.map_snd_zip _ _ (by simp)
          rw [hmap]
          exact List.count_eq_one_of_mem hnd hmem

/-- Witness for claim C2: with cascade [r2, master] and trigger "r1",
the merges are (r1, r2) then (r2, master), and "r2" is merged into
exactly once. -/
theorem CascadeMerge_hop_by_hop_witness :
    mergeCalls (CascadeMerge envAllOk "r1" none).2 = [("r1", "r2"), ("r2", "master")]
    ∧ List.count "r2" ((mergeCalls (CascadeMerge envAllOk "r1" none).2).map Prod.snd) = 1 :=
  have h := CascadeMerge_hop_by_hop envAllOk "r1" none
    { Branches := ["r2", "master"], Current := 0 } (CascadeMerge envAllOk "r1" none).2
    rfl rfl (by decide)
  ⟨h.1, h.2 (by decide) "r2" (by decide)⟩

/-- Claim C5: when a normal merge is required and the index reports
conflicts (overlapping incompatible edits on both sides), `MergeBranches`
fails with the conflict error and performs no commit — conflicts are
surfaced, never auto-resolved; and when the merge step of a cascade
iteration fails, the loop returns at once with that source/target pair,
its trace ending at the merge call, so `Push` is never called for that
target. -/
theorem MergeBranches_conflict_unpushed :
    (∀ (env : MergeEnv) (s d : String),
      env.lookupSourceBranch = none →
      env.lookupDestinationBranch = none →
      env.annotatedCommitFromRef = none →
      env.headLookup = none →
      env.mergeAnalysis = MergeAnalysisNormal →
      env.mergeOp = none →
      env.indexLookup = none →
      env.hasConflicts = true →
      MergeBranches env s d = (Except.error conflictErrorMessage, [MergeAction.mergeOp]))
    ∧ (∀ (genv : GitEnv) (tr : List GitCall) (source target : String)
        (rest : List String) (e : String),
        target ≠ "" →
        genv.checkout tr target = none →
        genv.reset (tr ++ [GitCall.checkout target]) target = none →
        genv.mergeBranches (tr ++ [GitCall.checkout target, GitCall.reset target])
          source target = some e →
        cascadeLoopList genv tr source (target :: rest)
          = (some ⟨source, target, e⟩,
            tr ++ [GitCall.checkout target, GitCall.reset target,
              GitCall.mergeBranches source target])) := by
  constructor
  · intro env s d h1 h2 h3 h4 h5 h6 h7 h8
    rw [MergeBranches]
    rw [h1, h2, h3, h4, h5, h6, h7]
    simp [MergeAnalysisNone, MergeAnalysisUpToDate, MergeAnalysisNormal, h8]
  · intro genv tr source target rest e ht hco hre hmg
    rw [cascadeLoopList, if_neg ht, hco]
    simp only [hre, List.append_assoc, List.singleton_append, List.cons_append,
      List.nil_append]
    simp [hmg]

/-- Witness for claim C5: a conflicting merge environment yields the
conflict error with no commit action, and a failing merge step ends the
loop trace at the merge call with no push. -/
theorem MergeBranches_conflict_unpushed_witness :
    MergeBranches envConflict "release/1.0" "release/1.2"
      = (Except.error conflictErrorMessage, [MergeAction.mergeOp])
    ∧ cascadeLoopList envMergeFails [] "s" ["t"]
      = (some ⟨"s", "t", "conflict"⟩,
        [GitCall.checkout "t", GitCall.reset "t", GitCall.mergeBranches "s" "t"]) :=
  ⟨MergeBranches_conflict_unpushed.1 envConflict "release/1.0" "release/1.2"
      rfl rfl rfl rfl rfl rfl rfl rfl,
    MergeBranches_conflict_unpushed.2 envMergeFails [] "s" "t" [] "conflict"
      (by decide) rfl rfl rfl⟩

lemma insertLess_perm (less : String → String → Bool) (a : String) (l : List String) :
    (insertLess less a l).Perm (a :: l) := by
  induction l with
  | nil => exact List.Perm.refl _
  | cons b bs ih =>
    rw [insertLess]
    by_cases h : less a b
    · rw [if_pos h]
    · rw [if_neg h]
      exact ((ih.cons b).trans (List.Perm.swap a b bs))

lemma sortByLess_perm (less : String → String → Bool) (l : List String) :
    (sortByLess less l).Perm l := by
  induction l with
  | nil => exact List.Perm.refl _
  | cons a as ih => exact (insertLess_perm less a _).trans (ih.cons a)

lemma sliceFrom_sublist (b : String) : ∀ (l r : List String),
    sliceFrom b l = some r → r.Sublist l := by
  intro l
  induction l with
  | nil => intro r h; simp [sliceFrom] at h
  | cons x xs ih =>
    intro r h
    rw [sliceFrom] at h
    by_cases hx : x = b
    · rw [if_pos hx] at h
      injection h with h
      exact h ▸ (List.sublist_cons_self x xs)
    · rw [if_neg hx] at h
      exact (ih r h).trans (List.sublist_cons_self x xs)

lemma firstIdxOf_some (a : String) : ∀ (l : List String) (i : Nat),
    firstIdxOf a l = some i → ∃ h : i < l.length, l.get ⟨i, h⟩ = a := by
  intro l
  induction l with
  | nil => intro i h; simp [firstIdxOf] at h
  | cons b bs ih =>
    intro i h
    rw [firstIdxOf] at h
    by_cases hb : b = a
    · rw [if_pos hb] at h
      injection h with h
      subst h
      exact ⟨by simp, by simpa using hb⟩
    · rw [if_neg hb] at h
      rcases Option.map_eq_some'.mp h with ⟨j, hj, hij⟩
      rcases ih j hj with ⟨hlt, hget⟩
      subst hij
      exact ⟨by simp [Nat.succ_lt_succ hlt], by simpa using hget⟩

lemma firstIdxOf_none (a : String) : ∀ (l : List String),
    firstIdxOf a l = none → a ∉ l := by
  intro l
  induction l with
  | nil => intro _ h; simp at h
  | cons b bs ih =>
    intro h hmem
    rw [firstIdxOf] at h
    by_cases hb : b = a
    · rw [if_pos hb] at h; exact Option.noConfusion h
    · rw [if_neg hb] at h
      rcases List.mem_cons.mp hmem with h1 | h1
      · exact hb h1.symm
      · exact ih (Option.map_eq_none'.mp h) h1

lemma count_removed_at_first (a : String) (l : List String) (i : Nat) (hnd : l.Nodup)
    (hidx : firstIdxOf a l = some i) :
    List.count a (l.take i ++ l.drop (i + 1)) = 0 := by
  rcases firstIdxOf_some a l i hidx with ⟨hlt, hget⟩
  have hmem : a ∈ l := by
    rw [← hget]; exact List.get_mem l _ _
  have hcount1 : List.count a l = 1 := List.count_eq_one_of_mem hnd hmem
  have hsplit : l = l.take i ++ l.drop i := (List.take_append_drop i l).symm
  have hgetElem : l[i] = a := by simpa using hget
  have hdropcons : l.drop i = a :: l.drop (i + 1) := by
    rw [List.drop_eq_getElem_cons hlt, hgetElem]
  have h3 : List.count a (l.take i) + List.count a (l.drop i) = 1 := by
    rw [← List.count_append, ← hsplit]
    exact hcount1
  rw [hdropcons, List.count_cons_self] at h3
  rw [List.count_append]
  omega

lemma slice_branches_nodup (c : Cascade) (sb : String) (h : c.Branches.Nodup) :
    ((c.Slice sb).Branches).Nodup := by
  rw [Cascade.Slice]
  cases hs : sliceFrom sb c.Branches with
  | some rest => simpa using (sliceFrom_sublist sb _ _ hs).nodup h
  | none => simpa using h

/-- Claim C3: for every set of remote branches (no duplicate names) and
every options value, the branch sequence `BuildCascade` returns contains
"master" exactly once and as its final element — moved to the end when
already present, appended otherwise. -/
theorem BuildCascade_master_once_last :
    ∀ (remoteShorthands : List String) (options : CascadeOptions) (startBranch : String),
      (remoteShorthands.map (fun sh => trimPre sh (DefaultRemoteName ++ "/"))).Nodup →
      List.count DefaultMaster (BuildCascade remoteShorthands options startBranch).Branches = 1
      ∧ (BuildCascade remoteShorthands options startBranch).Branches.getLast?
          = some DefaultMaster := by
  intro rs options sb hnd
  have hdev : ((rs.map (fun sh => trimPre sh (DefaultRemoteName ++ "/"))).filter
      (fun n => n = options.DevelopmentName)).Nodup := hnd.filter _
  have hrel : ((rs.map (fun sh => trimPre sh (DefaultRemoteName ++ "/"))).filter
      (fun n => !(n = options.DevelopmentName : Bool) && hasPre n options.ReleasePrefix)).Nodup :=
    hnd.filter _
  have hperm := sortByLess_perm (releaseLess options)
    ((rs.map (fun sh => trimPre sh (DefaultRemoteName ++ "/"))).filter
      (fun n => !(n = options.DevelopmentName : Bool) && hasPre n options.ReleasePrefix))
  have hsorted : (sortByLess (releaseLess options)
      ((rs.map (fun sh => trimPre sh (DefaultRemoteName ++ "/"))).filter
        (fun n => !(n = options.DevelopmentName : Bool) && hasPre n options.ReleasePrefix))).Nodup :=
    hperm.nodup_iff.mpr hrel
  have hdisj : ∀ x, x ∈ ((rs.map (fun sh => trimPre sh (DefaultRemoteName ++ "/"))).filter
      (fun n => n = options.DevelopmentName)) →
      x ∈ sortByLess (releaseLess options)
        ((rs.map (fun sh => trimPre sh (DefaultRemoteName ++ "/"))).filter
          (fun n => !(n = options.DevelopmentName : Bool) && hasPre n options.ReleasePrefix)) →
      False := by
    intro x hx1 hx2
    have h1 := (List.mem_filter.mp hx1).2
    have h2 := (List.mem_filter.mp (hperm.mem_iff.mp hx2)).2
    simp at h1 h2
    exact h2.1 h1
  have happ : ((rs.map (fun sh => trimPre sh (DefaultRemoteName ++ "/"))).filter
      (fun n => n = options.DevelopmentName)
      ++ sortByLess (releaseLess options)
        ((rs.map (fun sh => trimPre sh (DefaultRemoteName ++ "/"))).filter
          (fun n => !(n = options.DevelopmentName : Bool) && hasPre n options.ReleasePrefix))).Nodup :=
    List.Nodup.append hdev hsorted (fun x hx1 hx2 => hdisj x hx1 hx2)
  have hnd2 := slice_branches_nodup
    { Branches := (rs.map (fun sh => trimPre sh (DefaultRemoteName ++ "/"))).filter
        (fun n => n = options.DevelopmentName)
        ++ sortByLess (releaseLess options)
          ((rs.map (fun sh => trimPre sh (DefaultRemoteName ++ "/"))).filter
            (fun n => !(n = options.DevelopmentName : Bool) && hasPre n options.ReleasePrefix)),
      Current := 0 } sb happ
  simp only [BuildCascade]
  split
  · next i heq =>
    constructor
    · rw [List.count_append, count_removed_at_first DefaultMaster _ i hnd2 heq]
      simp
    · exact List.getLast?_concat _
  · next heq =>
    constructor
    · have hnm := firstIdxOf_none DefaultMaster _ heq
      simp [Cascade.Append, List.count_append, List.count_eq_zero_of_not_mem hnm]
    · simp only [Cascade.Append]
      exact List.getLast?_concat _

/-- Witness for claim C3 on a concrete branch set. -/
theorem BuildCascade_master_once_last_witness :
    List.count DefaultMaster (BuildCascade ["origin/develop", "origin/release/1.0",
      "origin/master"] { DevelopmentName := "develop", ReleasePrefix := "release/" }
      "release/1.0").Branches = 1
    ∧ (BuildCascade ["origin/develop", "origin/release/1.0", "origin/master"]
      { DevelopmentName := "develop", ReleasePrefix := "release/" }
      "release/1.0").Branches.getLast? = some DefaultMaster :=
  BuildCascade_master_once_last ["origin/develop", "origin/release/1.0", "origin/master"]
    { DevelopmentName := "develop", ReleasePrefix := "release/" } "release/1.0" (by decide)

lemma sliceFrom_at_first : ∀ (l : List String) (b : String) (i : Nat) (h : i < l.length),
    l.get ⟨i, h⟩ = b → b ∉ l.take i → sliceFrom b l = some (l.drop (i + 1)) := by
  intro l
  induction l with
  | nil => intro b i h; simp at h
  | cons x xs ih =>
    intro b i h hget htake
    cases i with
    | zero =>
      simp at hget
      rw [sliceFrom, if_pos hget]
      rfl
    | succ j =>
      have hx : ¬x = b := by
        intro hxb
        exact htake (by simp [hxb])
      have htake2 : b ∉ xs.take j := by
        intro hmem
        exact htake (by simp [List.take_succ_cons, hmem])
      rw [sliceFrom, if_neg hx]
      exact ih b j (by simpa using h) (by simpa using hget) htake2

lemma sliceFrom_not_mem : ∀ (l : List String) (b : String), b ∉ l → sliceFrom b l = none := by
  intro l
  induction l with
  | nil => intro b _; rfl
  | cons x xs ih =>
    intro b hmem
    have hx : ¬x = b := fun h => hmem (by simp [h])
    rw [sliceFrom, if_neg hx]
    exact ih b (fun h => hmem (by simp [h]))

/-- Claim C4: truncation of the base sequence.  If `startBranch` occurs
at index i (its first occurrence), the truncated sequence is `base[i+1:]`,
so the start branch itself is never a target; if it is absent the cascade
is unchanged. -/
theorem Cascade_Slice_truncates :
    ∀ (c : Cascade) (b : String),
      (∀ (i : Nat) (h : i < c.Branches.length),
        c.Branches.get ⟨i, h⟩ = b → b ∉ c.Branches.take i →
        (c.Slice b).Branches = c.Branches.drop (i + 1))
      ∧ (b ∉ c.Branches → c.Slice b = c) := by
  intro c b
  constructor
  · intro i h hget htake
    rw [Cascade.Slice, sliceFrom_at_first c.Branches b i h hget htake]
  · intro hmem
    rw [Cascade.Slice, sliceFrom_not_mem c.Branches b hmem]

/-- Witness for claim C4: slicing [a, b, c] at "b" leaves [c]; slicing
[a, b] at the absent "z" leaves the cascade unchanged. -/
theorem Cascade_Slice_truncates_witness :
    (Cascade.Slice { Branches := ["a", "b", "c"], Current := 0 } "b").Branches = ["c"]
    ∧ Cascade.Slice { Branches := ["a", "b"], Current := 0 } "z"
      = { Branches := ["a", "b"], Current := 0 } :=
  ⟨(Cascade_Slice_truncates { Branches := ["a", "b", "c"], Current := 0 } "b").1 1
      (by decide) (by decide) (by decide),
    (Cascade_Slice_truncates { Branches := ["a", "b"], Current := 0 } "z").2 (by decide)⟩

/-- Claim C6 (evidence of the code bug): after a successful iterator
creation `RemoveLocalBranches` returns nil unconditionally — the deletion
error aborts the iteration (the branch is not deleted) but the function
still returns nil, contradicting the specified propagation of a deletion
failure; with no failures it deletes exactly the non-"master" branches. -/
theorem RemoveLocalBranches_swallows_deletion_error :
    (∀ (localBranches : List String) (deleteBranch : String → Option String),
      (RemoveLocalBranches none localBranches deleteBranch).1 = none)
    ∧ RemoveLocalBranches none ["feature"] (fun _ => some "permission denied") = (none, [])
    ∧ RemoveLocalBranches none ["feature/x", "master", "develop"] (fun _ => none)
      = (none, ["feature/x", "develop"]) :=
  ⟨fun _ _ => rfl, rfl, rfl⟩

lemma dropPre_self : ∀ (l : List Char), dropPre l l = some [] := by
  intro l
  induction l with
  | nil => rfl
  | cons c cs ih => rw [dropPre, if_pos rfl]; exact ih

lemma hasPre_self (s : String) : hasPre s s = true := by
  rw [hasPre, dropPre_self]
  rfl

lemma worker_no_cascade_when_skipped (env : WorkerEnv) (destination : String)
    (opts : CascadeOptions) (hopts : env.getCascadeOptions = Except.ok opts)
    (hd : hasPre destination opts.DevelopmentName = true)
    (hr : hasPre destination opts.ReleasePrefix = false) :
    ∀ (nc : Bool) (bn : String),
      WorkerAction.cascadeMerge nc bn ∉ workerBody env destination := by
  intro nc bn
  rw [workerBody]
  cases hurl : env.getCloneURL with
  | error e => simp
  | ok u =>
    rw [hopts]
    simp [hd, hr]

/-- Claim C8: when the event's destination starts with the development
name but not with the release prefix, the worker performs no cascade run —
no `cascadeMerge` action appears for the event; in particular a
destination equal to the development name (which is its own prefix) is
skipped whenever the development name is not itself on the release
track. -/
theorem worker_skips_development_destination :
    (∀ (env : WorkerEnv) (destination : String) (opts : CascadeOptions),
      env.getCascadeOptions = Except.ok opts →
      hasPre destination opts.DevelopmentName = true →
      hasPre destination opts.ReleasePrefix = false →
      ∀ (nc : Bool) (bn : String),
        WorkerAction.cascadeMerge nc bn ∉ workerBody env destination)
    ∧ (∀ (env : WorkerEnv) (opts : CascadeOptions),
      env.getCascadeOptions = Except.ok opts →
      hasPre opts.DevelopmentName opts.ReleasePrefix = false →
      ∀ (nc : Bool) (bn : String),
        WorkerAction.cascadeMerge nc bn ∉ workerBody env opts.DevelopmentName) :=
  ⟨fun env destination opts hopts hd hr =>
      worker_no_cascade_when_skipped env destination opts hopts hd hr,
    fun env opts hopts hr =>
      worker_no_cascade_when_skipped env opts.DevelopmentName opts hopts
        (hasPre_self opts.DevelopmentName) hr⟩

/-- Witness for claim C8: destination "develop" under develop/release
options triggers no cascade. -/
theorem worker_skips_development_destination_witness :
    WorkerAction.cascadeMerge true "develop" ∉ workerBody wenvOk "develop" :=
  worker_skips_development_destination.1 wenvOk "develop"
    { DevelopmentName := "develop", ReleasePrefix := "release/" }
    rfl (by decide) (by decide) true "develop"

/-- Claim C10 (implicit): a `NewClient` failure does not skip the
event — the worker logs it and still invokes the cascade merge on the nil
client — unlike a clone-URL failure (which ends the event after the URL
lookup) and a cascade-options failure (after which no cascade runs). -/
theorem worker_continues_after_client_init_failure :
    (∀ (env : WorkerEnv) (destination u e : String) (opts : CascadeOptions),
      env.getCloneURL = Except.ok u →
      env.newClient = Except.error e →
      env.getCascadeOptions = Except.ok opts →
      (hasPre destination opts.DevelopmentName
        && !hasPre destination opts.ReleasePrefix) = false →
      WorkerAction.cascadeMerge true destination ∈ workerBody env destination)
    ∧ (∀ (env : WorkerEnv) (destination e : String),
      env.getCloneURL = Except.error e →
      workerBody env destination = [WorkerAction.getCloneURL])
    ∧ (∀ (env : WorkerEnv) (destination u e : String),
      env.getCloneURL = Except.ok u →
      env.getCascadeOptions = Except.error e →
      ∀ (nc : Bool) (bn : String),
        WorkerAction.cascadeMerge nc bn ∉ workerBody env destination) := by
  refine ⟨?_, ?_, ?_⟩
  · intro env destination u e opts hurl hnc hopts hskip
    rw [workerBody, hurl, hnc, hopts]
    simp only [hskip]
    cases env.cascadeResult <;> simp
  · intro env destination e hurl
    rw [workerBody, hurl]
  · intro env destination u e hurl hopts nc bn
    rw [workerBody, hurl, hopts]
    simp

/-- Witness for claim C10: with a failing client initialization the
cascade merge is still invoked on the nil client; with a failing URL or
options lookup it is not. -/
theorem worker_continues_after_client_init_failure_witness :
    WorkerAction.cascadeMerge true "release/1.0" ∈ workerBody wenvClientFails "release/1.0"
    ∧ workerBody wenvURLFails "release/1.0" = [WorkerAction.getCloneURL]
    ∧ WorkerAction.cascadeMerge true "release/1.0" ∉ workerBody wenvOptionsFail "release/1.0" :=
  ⟨worker_continues_after_client_init_failure.1 wenvClientFails "release/1.0" "https-url"
      "cannot clone" { DevelopmentName := "develop", ReleasePrefix := "release/" }
      rfl rfl rfl (by decide),
    worker_continues_after_client_init_failure.2.1 wenvURLFails "release/1.0" "http 404" rfl,
    worker_continues_after_client_init_failure.2.2 wenvOptionsFail "release/1.0" "https-url"
      "no branching model" rfl rfl true "release/1.0"⟩
